import Mathlib

/-!
Shallow embedding of the `ez` language front end (src/compiler/src/lexer.rs and
src/compiler/src/parser.rs) and proofs about it.

The lexer state in the source is a string plus a character-offset cursor that
only ever moves forward; we represent it by the list of characters at and after
the cursor.  Each `tokenize_*` helper takes the character under the cursor
(`current()`, which the source unwraps) plus the characters after it, and
returns the produced token together with the remaining characters.
-/

namespace EZ

inductive TokenKind where
  | Unknown
  | Identifier
  -- Keywords
  | Fn
  | Mut
  | If
  | Else
  -- Primitives
  | Integer
  | Float
  | String
  -- Symbols and Operators
  | LeftCurly
  | RightCurly
  | LeftParen
  | RightParen
  | LeftBracket
  | RightBracket
  | Dot
  | Comma
  | Colon
  | Semi
  | DeclAssign
  | Assign
  -- Math Operators
  | Plus
  | Minus
  | Times
  | DividedBy
  -- Conditional Operators
  | Equals
  | Not
  | NotEquals
  | GreaterThan
  | GreaterOrEquals
  | LowerThan
  | LowerOrEquals
  | Or
  | And
  -- Bitwise Operators
  | BitAnd
  | BitOr
  | BitXor
  | BitNot
deriving DecidableEq, Repr

structure Token where
  kind : TokenKind
  value : List Char
deriving DecidableEq, Repr

/-- Rust `char::is_whitespace`: the Unicode White_Space property. -/
def rustIsWhitespace (c : Char) : Bool :=
  c = ' ' || c = '\t' || c = '\n' || c = '\x0b' || c = '\x0c' || c = '\r' ||
  c = '\x85' || c = '\xa0' || c = '\u1680' ||
  (0x2000 ≤ c.toNat && c.toNat ≤ 0x200a) ||
  c = '\u2028' || c = '\u2029' || c = '\u202f' || c = '\u205f' || c = '\u3000'

/-- Rust `char::is_ascii_digit`: `'0'..='9'`, code points 48..=57. -/
def isAsciiDigit (c : Char) : Bool :=
  48 ≤ c.toNat && c.toNat ≤ 57

/-- Rust `char::is_ascii_alphabetic`: `'A'..='Z'` (65..=90) or `'a'..='z'` (97..=122). -/
def isAsciiAlphabetic (c : Char) : Bool :=
  (65 ≤ c.toNat && c.toNat ≤ 90) || (97 ≤ c.toNat && c.toNat ≤ 122)

/-- Rust `char::is_ascii_alphanumeric`. -/
def isAsciiAlphanumeric (c : Char) : Bool :=
  isAsciiAlphabetic c || isAsciiDigit c

/-- `Lexer::is_number_token`. -/
def is_number_token (c : Char) : Bool :=
  isAsciiDigit c || c = '.'

/-- The loop of `Lexer::tokenize_number`: `cur` is the character under the
cursor, `rest` the characters after it; `kind` and `acc` are the accumulated
kind and text. -/
def numberLoop (kind : TokenKind) (acc : List Char) (cur : Char) (rest : List Char) :
    Token × List Char :=
  let kind := if cur = '.' then TokenKind.Float else kind
  let acc := acc ++ [cur]
  match rest with
  | [] => (⟨kind, acc⟩, [])
  | next :: rest' =>
    if is_number_token next then numberLoop kind acc next rest'
    else (⟨kind, acc⟩, next :: rest')

/-- `Lexer::tokenize_number`, entered with `cur` under the cursor. -/
def tokenize_number (cur : Char) (rest : List Char) : Token × List Char :=
  numberLoop TokenKind.Integer [] cur rest

/-- The loop of `Lexer::tokenize_unknown`. -/
def unknownLoop (acc : List Char) : List Char → Token × List Char
  | [] => (⟨TokenKind.Unknown, acc⟩, [])
  | c :: rest =>
    if rustIsWhitespace c then (⟨TokenKind.Unknown, acc⟩, c :: rest)
    else unknownLoop (acc ++ [c]) rest

/-- `Lexer::tokenize_unknown`, entered with `cur` under the cursor. -/
def tokenize_unknown (cur : Char) (rest : List Char) : Token × List Char :=
  unknownLoop [cur] rest

/-- The loop of `Lexer::tokenize_identifier`: the loop breaks on the first
character that is not ASCII alphanumeric or that is an underscore. -/
def identLoop (acc : List Char) : List Char → List Char × List Char
  | [] => (acc, [])
  | c :: rest =>
    if !isAsciiAlphanumeric c || c = '_' then (acc, c :: rest)
    else identLoop (acc ++ [c]) rest

/-- The keyword check at the end of `Lexer::tokenize_identifier`. -/
def keyword_kind (v : List Char) : TokenKind :=
  if v = "fn".data then TokenKind.Fn
  else if v = "mut".data then TokenKind.Mut
  else if v = "if".data then TokenKind.If
  else if v = "else".data then TokenKind.Else
  else TokenKind.Identifier

/-- `Lexer::tokenize_identifier`, entered with `cur` under the cursor. -/
def tokenize_identifier (cur : Char) (rest : List Char) : Token × List Char :=
  let r := identLoop [cur] rest
  (⟨keyword_kind r.1, r.1⟩, r.2)

/-- The loop of `Lexer::tokenize_string`: the kind stays `Unknown` unless a
closing quote is found. -/
def stringLoop (acc : List Char) : List Char → Token × List Char
  | [] => (⟨TokenKind.Unknown, acc⟩, [])
  | c :: rest =>
    if c = '"' then (⟨TokenKind.String, acc⟩, rest)
    else stringLoop (acc ++ [c]) rest

/-- `Lexer::tokenize_string`: entered with the opening quote under the cursor;
the loop starts by advancing past it, so it operates on `rest`. -/
def tokenize_string (rest : List Char) : Token × List Char :=
  stringLoop [] rest

/-- `Lexer::symbol_table`: the fixed key/kind pairs (`'\x7b'` is `{`,
`'\x7d'` is `}`). -/
def symbol_table : List (List Char × TokenKind) := [
  (['\x7b'], TokenKind.LeftCurly),
  (['\x7d'], TokenKind.RightCurly),
  (['('], TokenKind.LeftParen),
  ([')'], TokenKind.RightParen),
  (['['], TokenKind.LeftBracket),
  ([']'], TokenKind.RightBracket),
  (['.'], TokenKind.Dot),
  ([','], TokenKind.Comma),
  ([':'], TokenKind.Colon),
  ([';'], TokenKind.Semi),
  ([':', '='], TokenKind.DeclAssign),
  (['='], TokenKind.Assign),
  (['+'], TokenKind.Plus),
  (['-'], TokenKind.Minus),
  (['*'], TokenKind.Times),
  (['/'], TokenKind.DividedBy),
  (['=', '='], TokenKind.Equals),
  (['!'], TokenKind.Not),
  (['!', '='], TokenKind.NotEquals),
  (['|', '|'], TokenKind.Or),
  (['&', '&'], TokenKind.And),
  (['>'], TokenKind.GreaterThan),
  (['>', '='], TokenKind.GreaterOrEquals),
  (['<'], TokenKind.LowerThan),
  (['<', '='], TokenKind.LowerOrEquals),
  (['&'], TokenKind.BitAnd),
  (['|'], TokenKind.BitOr),
  (['^'], TokenKind.BitXor),
  (['~'], TokenKind.BitNot)]

/-- Lookup in the symbol table (the `HashMap` of the source; keys are
distinct, so association-list lookup agrees with it). -/
def symbolLookup (s : List Char) : Option Token :=
  (symbol_table.find? (fun p => p.1 == s)).map (fun p => ⟨p.2, p.1⟩)

/-- The characters of all keys of the symbol table joined together
(`SYMBOL_CHARS` in the source; only membership matters, so the hash-map
iteration order is irrelevant). -/
def symbolChars : List Char :=
  (symbol_table.map Prod.fst).flatten

/-- `Lexer::is_symbol_token`. -/
def is_symbol_token (c : Char) : Bool :=
  (symbolChars.find? (fun search => search == c)).isSome

/-- `Lexer::tokenize_symbol`, entered with `c` under the cursor.  The
`table[..]` indexings of the source panic on a missing key; every key used
here is present (shown by the theorems below), so the `.getD` defaults are
unreachable. -/
def tokenize_symbol (c : Char) (rest : List Char) : Token × List Char :=
  if c = ':' ∨ c = '=' ∨ c = '>' ∨ c = '<' ∨ c = '!' then
    let regular := (symbolLookup [c]).getD ⟨TokenKind.Unknown, [c]⟩
    match rest with
    | [] => (regular, [])
    | next :: rest' =>
      if next ≠ '=' then (regular, next :: rest')
      else ((symbolLookup [c, '=']).getD ⟨TokenKind.Unknown, [c, '=']⟩, rest')
  else if c = '&' ∨ c = '|' then
    let regular := (symbolLookup [c]).getD ⟨TokenKind.Unknown, [c]⟩
    match rest with
    | [] => (regular, [])
    | next :: rest' =>
      if next ≠ c then (regular, next :: rest')
      else ((symbolLookup [c, c]).getD ⟨TokenKind.Unknown, [c, c]⟩, rest')
  else
    (match symbolLookup [c] with
     | some t => t
     | none => ⟨TokenKind.Unknown, [c]⟩, rest)

/-- `Lexer::tokenize`: skip whitespace, then dispatch on the character under
the cursor.  Returns the token (or `none` at end of input) and the remaining
characters. -/
def tokenize : List Char → Option Token × List Char
  | [] => (none, [])
  | c :: rest =>
    if rustIsWhitespace c then tokenize rest
    else if is_number_token c then
      let r := tokenize_number c rest
      (some r.1, r.2)
    else if isAsciiAlphabetic c || c = '_' then
      let r := tokenize_identifier c rest
      (some r.1, r.2)
    else if c = '"' then
      let r := tokenize_string rest
      (some r.1, r.2)
    else if is_symbol_token c then
      let r := tokenize_symbol c rest
      (some r.1, r.2)
    else
      let r := tokenize_unknown c rest
      (some r.1, r.2)

/-! ## Parser (src/compiler/src/parser.rs) -/

inductive ParseError where
  | NoMoreTokens
  | MissingTokenAfter (t : Token)
  | UnexpectedToken (t : Token)
  | InvalidNumber (t : Token)
deriving DecidableEq, Repr

mutual
inductive BaseType where
  | Void
  | Number
  | String
  | Function (params : List Param) (return_type : BaseType)
deriving Repr
inductive Param where
  | mk (identifier : List Char) (basetype : BaseType)
deriving Repr
end

mutual
inductive ValueExpr where
  | Number (n : ℚ)
  | String (s : List Char)
  | Function (params : List Param) (return_type : BaseType) (body : List Expr)
deriving Repr
inductive Expr where
  | Binary (left : Expr) (right : Expr) (operator : TokenKind)
  | Declaration (identifier : List Char) (value : ValueExpr)
  | Block (body : List Expr)
deriving Repr
end

/-- Modelled from Rust `str::parse::<f64>` as used by `parse_value`: on the
number-lexeme alphabet (ASCII digits and `'.'`, which is all the lexer ever
produces for `Integer`/`Float` tokens) the parse succeeds iff the text
contains at least one digit, at most one `'.'`, and nothing else; the value is
the exact decimal rational (identical to the f64 value for the exactly
representable literals appearing in the claims). -/
def parse_f64 (s : List Char) : Option ℚ :=
  if (s.all fun c => isAsciiDigit c || c = '.') ∧ (s.any isAsciiDigit) ∧ s.count '.' ≤ 1 then
    let intPart := s.takeWhile (· ≠ '.')
    let fracPart := (s.dropWhile (· ≠ '.')).drop 1
    let digitsVal : List Char → ℕ := fun l => l.foldl (fun a c => 10 * a + (c.toNat - 48)) 0
    some (mkRat (digitsVal (intPart ++ fracPart)) (10 ^ fracPart.length))
  else none

/-- The parser state: the buffered lookahead token (`self.current`) and the
remaining characters of the owned lexer. -/
structure PState where
  current : Option Token
  lexer : List Char
deriving DecidableEq, Repr

/-- `Parser::advance`: pull the next token from the lexer into `current` and
return it. -/
def PState.advance (s : PState) : Option Token × PState :=
  let r := tokenize s.lexer
  (r.1, ⟨r.1, r.2⟩)

/-!
The parser functions of the source are mutually recursive
(`parse` → `parse_identifier` → `parse_value` → `parse_function` → `parse`),
with two inner loops in `parse_function`.  We embed them with an explicit fuel
parameter that every function and loop iteration decrements; a result of
`none` means the computation did not return at that fuel (it also models the
`unwrap()` of a missing `current` token, which the theorems below show is
unreachable from `parse`).  The termination theorem shows fuel
`2 * remaining-characters + 2` always suffices, which is how `parse` is
defined.
-/

mutual

/-- `Parser::parse`. -/
def parseF : Nat → PState → Option (Except ParseError Expr × PState)
  | 0, _ => none
  | fuel + 1, s =>
    let s := if s.current.isNone then (s.advance).2 else s
    match s.current with
    | none => some (.error .NoMoreTokens, s)
    | some token =>
      if token.kind = TokenKind.Identifier then parse_identifierF fuel s
      else some (.error (.UnexpectedToken token), s)

/-- `Parser::parse_identifier`. -/
def parse_identifierF : Nat → PState → Option (Except ParseError Expr × PState)
  | 0, _ => none
  | fuel + 1, s =>
    match s.current with
    | none => none
    | some ident =>
      match s.advance with
      | (none, s1) => some (.error (.MissingTokenAfter ident), s1)
      | (some next, s1) =>
        if next.kind = TokenKind.DeclAssign then
          match s1.advance with
          | (none, s2) => some (.error (.MissingTokenAfter next), s2)
          | (some _, s2) =>
            match parse_valueF fuel s2 with
            | none => none
            | some (.error e, s3) => some (.error e, s3)
            | some (.ok value_expr, s3) =>
              match value_expr with
              | .Function _ _ _ => some (.ok (.Declaration ident.value value_expr), s3)
              | _ =>
                match s3.current with
                | none => some (.error (.MissingTokenAfter next), s3)
                | some token =>
                  if token.kind = TokenKind.Semi then
                    some (.ok (.Declaration ident.value value_expr), s3)
                  else some (.error (.UnexpectedToken token), s3)
        else some (.error (.UnexpectedToken next), s1)

/-- `Parser::parse_value`. -/
def parse_valueF : Nat → PState → Option (Except ParseError ValueExpr × PState)
  | 0, _ => none
  | fuel + 1, s =>
    match s.current with
    | none => none
    | some token =>
      match token.kind with
      | TokenKind.Integer | TokenKind.Float =>
        match parse_f64 token.value with
        | none => some (.error (.InvalidNumber token), s)
        | some number => some (.ok (.Number number), (s.advance).2)
      | TokenKind.String => some (.ok (.String token.value), (s.advance).2)
      | TokenKind.Fn => parse_functionF fuel s
      | _ => some (.error (.UnexpectedToken token), s)

/-- `Parser::parse_function`. -/
def parse_functionF : Nat → PState → Option (Except ParseError ValueExpr × PState)
  | 0, _ => none
  | fuel + 1, s =>
    match s.current with
    | none => none
    | some previous =>
      match go_curlyF fuel previous s with
      | none => none
      | some (.error e, s1) => some (.error e, s1)
      | some (.ok previous1, s1) => fn_bodyF fuel previous1 [] s1

/-- The first loop of `Parser::parse_function`: advance until a `LeftCurly`
token is found, tracking the most recent token as `previous`; returns
`previous` on success. -/
def go_curlyF : Nat → Token → PState → Option (Except ParseError Token × PState)
  | 0, _, _ => none
  | fuel + 1, previous, s =>
    match s.advance with
    | (none, s1) => some (.error (.MissingTokenAfter previous), s1)
    | (some token, s1) =>
      if token.kind = TokenKind.LeftCurly then some (.ok previous, s1)
      else go_curlyF fuel token s1

/-- The second loop of `Parser::parse_function`: advance; on `RightCurly`
advance once more and return the function value; otherwise parse one body
expression and continue. -/
def fn_bodyF : Nat → Token → List Expr → PState → Option (Except ParseError ValueExpr × PState)
  | 0, _, _, _ => none
  | fuel + 1, previous, body, s =>
    match s.advance with
    | (none, s1) => some (.error (.MissingTokenAfter previous), s1)
    | (some token, s1) =>
      if token.kind = TokenKind.RightCurly then
        some (.ok (.Function [] BaseType.Void body), (s1.advance).2)
      else
        match parseF fuel s1 with
        | none => none
        | some (.error e, s2) => some (.error e, s2)
        | some (.ok e, s2) => fn_bodyF fuel token (body ++ [e]) s2

end

/-- `Parser::new`. -/
def Parser.new (content : List Char) : PState :=
  ⟨none, content⟩

/-- `Parser::parse`, at the always-sufficient fuel (see the termination
theorem): `none` never occurs. -/
def parse (s : PState) : Option (Except ParseError Expr × PState) :=
  parseF (2 * s.lexer.length + 2) s

/-- Specification predicate (for the identifier-scan theorem): the characters
on which the scan of `tokenize_identifier` continues past the first
character — ASCII alphanumeric and not an underscore. -/
def identContinue (c : Char) : Bool :=
  isAsciiAlphanumeric c && !(c = '_')

/-! ## Theorems -/

/-- C1 (code evaluated at the failing input): for the input `x := 5;`, the
first `parse()` call returns `Declaration { identifier: "x", value:
Number(5.0) }`, but the trailing semicolon is left buffered as the current
token, so the second `parse()` call returns `UnexpectedToken` carrying the
`Semi` token — not `NoMoreTokens` as the specification states. -/
theorem c1_parse_x5_twice :
    parse (Parser.new "x := 5;".data) =
      some (.ok (.Declaration "x".data (.Number 5)),
            ⟨some ⟨TokenKind.Semi, ";".data⟩, []⟩) ∧
    parse ⟨some ⟨TokenKind.Semi, ";".data⟩, []⟩ =
      some (.error (.UnexpectedToken ⟨TokenKind.Semi, ";".data⟩),
            ⟨some ⟨TokenKind.Semi, ";".data⟩, []⟩) :=
  ⟨rfl, rfl⟩

/-- C2: for the input `x := 1.2.3;`, the third token produced by the lexer is
a single `Float` token with text `"1.2.3"`, and `parse()` fails with
`InvalidNumber` carrying exactly that token. -/
theorem c2_invalid_number :
    (tokenize (tokenize (tokenize "x := 1.2.3;".data).2).2).1 =
      some ⟨TokenKind.Float, "1.2.3".data⟩ ∧
    parse (Parser.new "x := 1.2.3;".data) =
      some (.error (.InvalidNumber ⟨TokenKind.Float, "1.2.3".data⟩),
            ⟨some ⟨TokenKind.Float, "1.2.3".data⟩, ";".data⟩) :=
  ⟨rfl, rfl⟩

theorem char_eq_of_toNat {c d : Char} (h : c.toNat = d.toNat) : c = d :=
  Char.ext (UInt32.ext h)

/-- The code points with the Unicode White_Space property. -/
theorem ws_toNat (c : Char) (h : rustIsWhitespace c = true) :
    c.toNat = 32 ∨ c.toNat = 9 ∨ c.toNat = 10 ∨ c.toNat = 11 ∨ c.toNat = 12 ∨
    c.toNat = 13 ∨ c.toNat = 133 ∨ c.toNat = 160 ∨ c.toNat = 5760 ∨
    (8192 ≤ c.toNat ∧ c.toNat ≤ 8202) ∨
    c.toNat = 8232 ∨ c.toNat = 8233 ∨ c.toNat = 8239 ∨ c.toNat = 8287 ∨
    c.toNat = 12288 := by
  rw [rustIsWhitespace] at h
  simp only [Bool.or_eq_true, Bool.and_eq_true, decide_eq_true_eq] at h
  rcases h with (((((((((((((h | h) | h) | h) | h) | h) | h) | h) | h) | h) | h) | h) | h) | h) | h <;>
    first
      | omega
      | (subst h; decide)

theorem number_toNat (c : Char) (h : is_number_token c = true) :
    46 ≤ c.toNat ∧ c.toNat ≤ 57 := by
  rw [is_number_token, isAsciiDigit] at h
  simp only [Bool.or_eq_true, Bool.and_eq_true, decide_eq_true_eq] at h
  rcases h with ⟨h1, h2⟩ | h
  · omega
  · subst h; decide

/-- A number character is never whitespace, so `tokenize` dispatches a number
character to `tokenize_number`. -/
theorem not_ws_of_number (c : Char) (h : is_number_token c = true) :
    rustIsWhitespace c = false := by
  cases hw : rustIsWhitespace c with
  | false => rfl
  | true =>
    have h1 := ws_toNat c hw
    have h2 := number_toNat c h
    omega

/-- The number loop consumes its entire input when every character is a
number character, and turns `Integer` into `Float` exactly when a dot is
seen. -/
theorem numberLoop_all : ∀ (rest : List Char) (kind : TokenKind) (acc : List Char) (cur : Char),
    (∀ x ∈ rest, is_number_token x = true) →
    numberLoop kind acc cur rest =
      (⟨if '.' ∈ cur :: rest then TokenKind.Float else kind, acc ++ cur :: rest⟩, []) := by
  intro rest
  induction rest with
  | nil =>
    intro kind acc cur _
    by_cases hc : cur = '.'
    · subst hc; simp [numberLoop]
    · simp [numberLoop, hc, eq_comm]
  | cons nx r ih =>
    intro kind acc cur h
    have hnx : is_number_token nx = true := h nx (List.mem_cons_self nx r)
    rw [numberLoop]
    simp only [hnx, if_true]
    rw [ih _ _ nx (fun x hx => h x (List.mem_cons_of_mem _ hx))]
    by_cases hc : cur = '.' <;> by_cases hd : ('.' : Char) ∈ nx :: r <;>
      simp [hc, hd, List.mem_cons, eq_comm]

/-- C7: a maximal run of digits and dots lexes to a single token whose text
is the whole run and whose kind is `Float` iff the run contains a dot. -/
theorem c7_number_run (s : List Char) (h0 : s ≠ []) (h : ∀ c ∈ s, is_number_token c = true) :
    tokenize s =
      (some ⟨if '.' ∈ s then TokenKind.Float else TokenKind.Integer, s⟩, []) := by
  match s, h0 with
  | c :: rest, _ =>
    have hc : is_number_token c = true := h c (List.mem_cons_self c rest)
    rw [tokenize]
    simp only [not_ws_of_number c hc, hc, Bool.false_eq_true, if_false, if_true]
    rw [tokenize_number, numberLoop_all rest TokenKind.Integer [] c
      (fun x hx => h x (List.mem_cons_of_mem _ hx))]
    simp

/-- Witness for C7 at the concrete run `1.25`. -/
theorem c7_witness :
    "1.25".data ≠ [] ∧ (∀ c ∈ "1.25".data, is_number_token c = true) ∧
    tokenize "1.25".data =
      (some ⟨if '.' ∈ "1.25".data then TokenKind.Float else TokenKind.Integer,
             "1.25".data⟩, []) :=
  ⟨by decide, by decide, c7_number_run "1.25".data (by decide) (by decide)⟩

/-- The string-literal loop: when no closing quote ever appears, the whole
input is accumulated and the kind stays `Unknown`. -/
theorem stringLoop_no_quote : ∀ (s acc : List Char), '"' ∉ s →
    stringLoop acc s = (⟨TokenKind.Unknown, acc ++ s⟩, []) := by
  intro s
  induction s with
  | nil => intro acc _; simp [stringLoop]
  | cons c r ih =>
    intro acc h
    simp only [List.mem_cons, not_or] at h
    rw [stringLoop]
    rw [if_neg (fun hh => h.1 hh.symm)]
    rw [ih _ h.2]
    simp

/-- C4: an opening quote never followed by a closing quote yields exactly one
token, of kind `Unknown`, whose text is everything after the opening quote;
the lexer itself never fails. -/
theorem c4_unterminated_string (s : List Char) (h : '"' ∉ s) :
    tokenize ('"' :: s) = (some ⟨TokenKind.Unknown, s⟩, []) ∧
    tokenize [] = (none, []) := by
  refine ⟨?_, rfl⟩
  have h0 : tokenize ('"' :: s) = (some (stringLoop [] s).1, (stringLoop [] s).2) := rfl
  rw [h0, stringLoop_no_quote s [] h]
  simp

/-- Witness for C4 at the concrete input `"abc` (opening quote, no closing
quote). -/
theorem c4_witness :
    '"' ∉ "abc".data ∧
    tokenize ('"' :: "abc".data) = (some ⟨TokenKind.Unknown, "abc".data⟩, []) ∧
    tokenize [] = (none, []) :=
  ⟨by decide, c4_unterminated_string "abc".data (by decide)⟩

/-- The identifier loop equals take-while/drop-while over `identContinue`:
it stops at the first character that is not ASCII alphanumeric or that is an
underscore. -/
theorem identLoop_eq : ∀ (rest acc : List Char),
    identLoop acc rest =
      (acc ++ rest.takeWhile identContinue, rest.dropWhile identContinue) := by
  intro rest
  induction rest with
  | nil => intro acc; simp [identLoop]
  | cons c r ih =>
    intro acc
    have hb : (!isAsciiAlphanumeric c || decide (c = '_')) = !identContinue c := by
      rw [identContinue]
      cases isAsciiAlphanumeric c <;> cases hd : decide (c = '_') <;> rfl
    rw [identLoop]
    cases hc : identContinue c with
    | false =>
      rw [List.takeWhile_cons, List.dropWhile_cons]
      simp [hb, hc]
    | true =>
      rw [List.takeWhile_cons, List.dropWhile_cons]
      simp [hb, hc, ih]

/-- C3: every identifier scan accumulates the first character and then
exactly the take-while run of characters that are ASCII alphanumeric and not
underscores, stopping at the first character failing that; in particular
`a_b` lexes to an `Identifier` with text `a` (the underscore terminates the
scan). -/
theorem c3_identifier_scan :
    (∀ cur rest, tokenize_identifier cur rest =
      (⟨keyword_kind (cur :: rest.takeWhile identContinue),
        cur :: rest.takeWhile identContinue⟩,
       rest.dropWhile identContinue)) ∧
    tokenize "a_b".data = (some ⟨TokenKind.Identifier, "a".data⟩, "_b".data) := by
  refine ⟨fun cur rest => ?_, rfl⟩
  rw [tokenize_identifier, identLoop_eq]
  simp

/-- Exhausted lexers stay exhausted: `tokenize` returns `none` only with an
empty remainder. -/
theorem tokenize_none_nil : ∀ (l : List Char), (tokenize l).1 = none → (tokenize l).2 = [] := by
  intro l
  induction l with
  | nil => intro _; rfl
  | cons c r ih =>
    intro h
    rw [tokenize] at h ⊢
    by_cases hw : rustIsWhitespace c
    · simp only [hw, if_true] at h ⊢
      exact ih h
    · simp only [hw, Bool.false_eq_true, if_false] at h ⊢
      repeat' split at h
      all_goals simp_all

/-- C8: once `tokenize` has returned absence, every subsequent call on the
resulting state returns absence again with the state unchanged — the stream
is drained permanently. -/
theorem c8_drained_forever (l : List Char) (h : (tokenize l).1 = none) :
    tokenize (tokenize l).2 = (none, (tokenize l).2) := by
  rw [tokenize_none_nil l h]
  rfl

/-- Witness for C8 at the all-whitespace input `" "`. -/
theorem c8_witness :
    (tokenize " ".data).1 = none ∧
    tokenize (tokenize " ".data).2 = (none, (tokenize " ".data).2) :=
  ⟨rfl, c8_drained_forever " ".data rfl⟩

/-- No entry of the symbol table has kind `Unknown`. -/
theorem table_kind_ne_unknown : ∀ p ∈ symbol_table, p.2 ≠ TokenKind.Unknown := by decide

/-- A successful symbol-table lookup never yields an `Unknown`-kind token. -/
theorem symbolLookup_kind (s : List Char) (t : Token) (h : symbolLookup s = some t) :
    t.kind ≠ TokenKind.Unknown := by
  rw [symbolLookup] at h
  rcases Option.map_eq_some'.mp h with ⟨p, hp, rfl⟩
  exact table_kind_ne_unknown p (List.mem_of_find?_eq_some hp)

theorem is_symbol_token_mem (c : Char) (h : is_symbol_token c = true) : c ∈ symbolChars := by
  rw [is_symbol_token] at h
  obtain ⟨x, hx⟩ := Option.isSome_iff_exists.mp h
  have hm := List.mem_of_find?_eq_some hx
  have he := List.find?_some hx
  rwa [← eq_of_beq he]

/-- Every character of a symbol-table key is itself a single-character key. -/
theorem mem_lookup_isSome : ∀ c ∈ symbolChars, (symbolLookup [c]).isSome = true := by decide

/-- A `getD` over a successful symbol-table lookup never has kind
`Unknown`. -/
theorem getD_kind_ne (s : List Char) (d : Token) (h : (symbolLookup s).isSome = true) :
    ((symbolLookup s).getD d).kind ≠ TokenKind.Unknown := by
  obtain ⟨t, ht⟩ := Option.isSome_iff_exists.mp h
  simpa [ht] using symbolLookup_kind s t ht

/-- C9: whenever `is_symbol_token` holds for the character under the cursor,
the single-character table lookup succeeds, so the fallback arm of
`tokenize_symbol` constructing an `Unknown` token is unreachable —
`tokenize_symbol` never returns a token of kind `Unknown`. -/
theorem c9_symbol_never_unknown (c : Char) (rest : List Char) (h : is_symbol_token c = true) :
    (tokenize_symbol c rest).1.kind ≠ TokenKind.Unknown := by
  have hmem : c ∈ symbolChars := is_symbol_token_mem c h
  obtain ⟨t, ht⟩ := Option.isSome_iff_exists.mp (mem_lookup_isSome c hmem)
  have hk := symbolLookup_kind [c] t ht
  rw [tokenize_symbol]
  split
  · next h5 =>
    cases rest with
    | nil => simpa [ht] using hk
    | cons next r =>
      by_cases hne : next = '='
      · subst hne
        rcases h5 with rfl | rfl | rfl | rfl | rfl <;>
          exact getD_kind_ne _ _ (by decide)
      · simpa [hne, ht] using hk
  · split
    · next h5 =>
      cases rest with
      | nil => simpa [ht] using hk
      | cons next r =>
        by_cases hne : next = c
        · subst hne
          rcases h5 with rfl | rfl <;>
            exact getD_kind_ne _ _ (by decide)
        · simpa [hne, ht] using hk
    · simpa [ht] using hk

/-- Witness for C9 at the character `+`. -/
theorem c9_witness :
    is_symbol_token '+' = true ∧ (tokenize_symbol '+' []).1.kind ≠ TokenKind.Unknown :=
  ⟨by decide, c9_symbol_never_unknown '+' [] (by decide)⟩

/-- C6: each ambiguous one-character prefix is widened to the two-character
kind exactly when the next character completes it: `":"` yields `Colon`,
`":="` yields `DeclAssign`, `"="` yields `Assign`, `"=="` yields `Equals`,
`"&"` yields `BitAnd`, and `"&&"` yields `And`. -/
theorem c6_symbol_widening :
    tokenize ":".data = (some ⟨TokenKind.Colon, ":".data⟩, []) ∧
    tokenize ":=".data = (some ⟨TokenKind.DeclAssign, ":=".data⟩, []) ∧
    tokenize "=".data = (some ⟨TokenKind.Assign, "=".data⟩, []) ∧
    tokenize "==".data = (some ⟨TokenKind.Equals, "==".data⟩, []) ∧
    tokenize "&".data = (some ⟨TokenKind.BitAnd, "&".data⟩, []) ∧
    tokenize "&&".data = (some ⟨TokenKind.And, "&&".data⟩, []) :=
  ⟨rfl, rfl, rfl, rfl, rfl, rfl⟩

/-! ### Length lemmas: every produced token consumes at least one character -/

theorem numberLoop_len (rest : List Char) : ∀ kind acc cur,
    (numberLoop kind acc cur rest).2.length ≤ rest.length := by
  induction rest with
  | nil => intro kind acc cur; simp [numberLoop]
  | cons nx r ih =>
    intro kind acc cur
    rw [numberLoop]
    by_cases h : is_number_token nx = true
    · simp only [h, if_true]
      exact le_trans (ih _ _ _) (Nat.le_succ _)
    · simp [h]

theorem identLoop_len (rest acc : List Char) :
    (identLoop acc rest).2.length ≤ rest.length := by
  rw [identLoop_eq]
  exact (List.dropWhile_sublist _).length_le

theorem stringLoop_len (s : List Char) : ∀ acc, (stringLoop acc s).2.length ≤ s.length := by
  induction s with
  | nil => intro acc; simp [stringLoop]
  | cons c r ih =>
    intro acc
    rw [stringLoop]
    by_cases h : c = '"'
    · simp [h]
    · simp only [h, if_false]
      exact le_trans (ih _) (Nat.le_succ _)

theorem unknownLoop_len (s : List Char) : ∀ acc, (unknownLoop acc s).2.length ≤ s.length := by
  induction s with
  | nil => intro acc; simp [unknownLoop]
  | cons c r ih =>
    intro acc
    rw [unknownLoop]
    by_cases h : rustIsWhitespace c = true
    · simp [h]
    · simp only [h, Bool.false_eq_true, if_false]
      exact le_trans (ih _) (Nat.le_succ _)

theorem tokenize_symbol_len (c : Char) (rest : List Char) :
    (tokenize_symbol c rest).2.length ≤ rest.length := by
  rw [tokenize_symbol]
  split
  · cases rest with
    | nil => simp
    | cons next r => dsimp only; split <;> simp
  · split
    · cases rest with
      | nil => simp
      | cons next r => dsimp only; split <;> simp
    · simp

/-- After skipping the whitespace character-by-character, every dispatch of
`tokenize` consumes the dispatched character. -/
theorem dispatch_len (c : Char) (r : List Char) (hw : rustIsWhitespace c = false) :
    (tokenize (c :: r)).2.length ≤ r.length := by
  rw [tokenize]
  simp only [hw, Bool.false_eq_true, if_false]
  repeat' split
  · exact numberLoop_len r _ _ _
  · exact identLoop_len r _
  · exact stringLoop_len r _
  · exact tokenize_symbol_len c r
  · exact unknownLoop_len r _

theorem tokenize_len_le : ∀ (l : List Char), (tokenize l).2.length ≤ l.length := by
  intro l
  induction l with
  | nil => exact le_refl _
  | cons c r ih =>
    by_cases hw : rustIsWhitespace c = true
    · rw [tokenize]
      simp only [hw, if_true]
      exact le_trans ih (Nat.le_succ _)
    · rw [Bool.not_eq_true] at hw
      exact le_trans (dispatch_len c r hw) (Nat.le_succ _)

/-- C10, lexer half: a `tokenize` call that returns a token strictly advances
the cursor. -/
theorem tokenize_some_lt : ∀ (l : List Char) (t : Token),
    (tokenize l).1 = some t → (tokenize l).2.length < l.length := by
  intro l
  induction l with
  | nil => intro t h; simp [tokenize] at h
  | cons c r ih =>
    intro t h
    by_cases hw : rustIsWhitespace c = true
    · rw [tokenize] at h ⊢
      simp only [hw, if_true] at h ⊢
      exact lt_trans (ih t h) (Nat.lt_succ_self _)
    · rw [Bool.not_eq_true] at hw
      exact Nat.lt_succ_of_le (dispatch_len c r hw)

/-! ### Parser state lemmas -/

theorem advance_current (s : PState) : (s.advance).2.current = (s.advance).1 := rfl

theorem advance_le (s : PState) : (s.advance).2.lexer.length ≤ s.lexer.length :=
  tokenize_len_le s.lexer

theorem advance_lt (s : PState) (t : Token) (h : (s.advance).1 = some t) :
    (s.advance).2.lexer.length < s.lexer.length :=
  tokenize_some_lt s.lexer t h

/-! ### C5: `parse_function` skips everything up to the left curly and always
produces an empty parameter list and a `Void` return type -/

/-- The curly-seeking loop of `parse_function` never produces a parse
result other than success or `MissingTokenAfter`: the skipped tokens are
never parsed. -/
theorem go_curly_result : ∀ (fuel : Nat) (prev : Token) (s : PState)
    (r : Except ParseError Token) (s1 : PState),
    go_curlyF fuel prev s = some (r, s1) →
    (∃ t, r = Except.ok t) ∨ (∃ t, r = Except.error (ParseError.MissingTokenAfter t)) := by
  intro fuel
  induction fuel with
  | zero => intro prev s r s1 h; simp [go_curlyF] at h
  | succ n ih =>
    intro prev s r s1 h
    rw [go_curlyF] at h
    rcases ha : s.advance with ⟨t?, sa⟩
    rw [ha] at h
    cases t? with
    | none =>
      simp only [Option.some.injEq, Prod.mk.injEq] at h
      exact Or.inr ⟨prev, h.1.symm⟩
    | some token =>
      dsimp only at h
      by_cases hk : token.kind = TokenKind.LeftCurly
      · simp only [hk, if_true, Option.some.injEq, Prod.mk.injEq] at h
        exact Or.inl ⟨prev, h.1.symm⟩
      · simp only [hk, if_false] at h
        exact ih _ _ _ _ h

/-- The body loop of `parse_function` only ever succeeds with a `Function`
value having empty parameters and `Void` return type. -/
theorem fn_body_shape : ∀ (fuel : Nat) (prev : Token) (body : List Expr) (s : PState)
    (v : ValueExpr) (s1 : PState),
    fn_bodyF fuel prev body s = some (Except.ok v, s1) →
    ∃ b, v = ValueExpr.Function [] BaseType.Void b := by
  intro fuel
  induction fuel with
  | zero => intro prev body s v s1 h; simp [fn_bodyF] at h
  | succ n ih =>
    intro prev body s v s1 h
    rw [fn_bodyF] at h
    rcases ha : s.advance with ⟨t?, sa⟩
    rw [ha] at h
    cases t? with
    | none => simp at h
    | some token =>
      dsimp only at h
      by_cases hk : token.kind = TokenKind.RightCurly
      · simp only [hk, if_true, Option.some.injEq, Prod.mk.injEq, Except.ok.injEq] at h
        exact ⟨body, h.1.symm⟩
      · simp only [hk, if_false] at h
        rcases hp : parseF n sa with _ | ⟨re, s2⟩
        · rw [hp] at h; simp at h
        · rw [hp] at h
          cases re with
          | error e => simp at h
          | ok e => exact ih _ _ _ _ _ h

/-- Success of `parse_function` itself has the same shape. -/
theorem parse_function_shape : ∀ (fuel : Nat) (s : PState) (v : ValueExpr) (s1 : PState),
    parse_functionF fuel s = some (Except.ok v, s1) →
    ∃ b, v = ValueExpr.Function [] BaseType.Void b := by
  intro fuel s v s1 h
  cases fuel with
  | zero => simp [parse_functionF] at h
  | succ n =>
    rw [parse_functionF] at h
    cases hc : s.current with
    | none => rw [hc] at h; simp at h
    | some prev =>
      rw [hc] at h
      dsimp only at h
      rcases hg : go_curlyF n prev s with _ | ⟨rg, sg⟩
      · rw [hg] at h; simp at h
      · rw [hg] at h
        cases rg with
        | error e => simp at h
        | ok prev1 => exact fn_body_shape _ _ _ _ _ _ h

/-- C5: whenever `parse_function` succeeds, the tokens between `fn` and the
first `LeftCurly` are skipped without being parsed (the skipping loop can
only succeed or report `MissingTokenAfter`; it never produces a parse result
for a skipped token), and the resulting value is always
`Function { params: [], return_type: Void, .. }`, regardless of what was
written in the source. -/
theorem c5_function_skips (fuel : Nat) (prev : Token) (s s1 sf sf1 : PState)
    (r : Except ParseError Token) (v : ValueExpr)
    (hcurly : go_curlyF fuel prev s = some (r, s1))
    (hfn : parse_functionF fuel sf = some (Except.ok v, sf1)) :
    ((∃ t, r = Except.ok t) ∨ (∃ t, r = Except.error (ParseError.MissingTokenAfter t))) ∧
    ∃ b, v = ValueExpr.Function [] BaseType.Void b :=
  ⟨go_curly_result fuel prev s r s1 hcurly, parse_function_shape fuel sf v sf1 hfn⟩

/-- Witness for C5: `parse_function` entered on `fn (a: int) -> int { }` —
the parameter list and return annotation are skipped, and the result is
`Function [] Void []`. -/
theorem c5_witness :
    go_curlyF 20 ⟨TokenKind.Fn, "fn".data⟩
        ⟨some ⟨TokenKind.Fn, "fn".data⟩, " (a: int) -> int \x7b \x7d".data⟩ =
      some (Except.ok ⟨TokenKind.Identifier, "int".data⟩,
            ⟨some ⟨TokenKind.LeftCurly, ['\x7b']⟩, " \x7d".data⟩) ∧
    parse_functionF 20 ⟨some ⟨TokenKind.Fn, "fn".data⟩, " (a: int) -> int \x7b \x7d".data⟩ =
      some (Except.ok (ValueExpr.Function [] BaseType.Void []), ⟨none, []⟩) ∧
    ((∃ t, (Except.ok ⟨TokenKind.Identifier, "int".data⟩ : Except ParseError Token) = Except.ok t) ∨
      (∃ t, (Except.ok ⟨TokenKind.Identifier, "int".data⟩ : Except ParseError Token) =
        Except.error (ParseError.MissingTokenAfter t))) ∧
    ∃ b, ValueExpr.Function [] BaseType.Void [] = ValueExpr.Function [] BaseType.Void b :=
  ⟨rfl, rfl,
    c5_function_skips 20 ⟨TokenKind.Fn, "fn".data⟩
      ⟨some ⟨TokenKind.Fn, "fn".data⟩, " (a: int) -> int \x7b \x7d".data⟩
      ⟨some ⟨TokenKind.LeftCurly, ['\x7b']⟩, " \x7d".data⟩
      ⟨some ⟨TokenKind.Fn, "fn".data⟩, " (a: int) -> int \x7b \x7d".data⟩
      ⟨none, []⟩ _ _ rfl rfl⟩

/-! ### C10: termination -/

theorem advance_eq (s : PState) (t? : Option Token) (l' : List Char)
    (h : tokenize s.lexer = (t?, l')) : s.advance = (t?, ⟨t?, l'⟩) := by
  simp only [PState.advance, h]

/-- Every parser function, when it returns, leaves a lexer no longer than the
one it started from. -/
theorem parser_mono : ∀ fuel : Nat,
    (∀ s r s', parseF fuel s = some (r, s') → s'.lexer.length ≤ s.lexer.length) ∧
    (∀ s r s', parse_identifierF fuel s = some (r, s') → s'.lexer.length ≤ s.lexer.length) ∧
    (∀ s r s', parse_valueF fuel s = some (r, s') → s'.lexer.length ≤ s.lexer.length) ∧
    (∀ s r s', parse_functionF fuel s = some (r, s') → s'.lexer.length ≤ s.lexer.length) ∧
    (∀ prev s r s', go_curlyF fuel prev s = some (r, s') →
      s'.lexer.length < s.lexer.length ∨
        (s'.lexer.length ≤ s.lexer.length ∧ ∀ t, r ≠ Except.ok t)) ∧
    (∀ prev body s r s', fn_bodyF fuel prev body s = some (r, s') →
      s'.lexer.length ≤ s.lexer.length) := by
  intro fuel
  induction fuel with
  | zero =>
    refine ⟨?_, ?_, ?_, ?_, ?_, ?_⟩ <;> intros <;>
      simp_all [parseF, parse_identifierF, parse_valueF, parse_functionF, go_curlyF, fn_bodyF]
  | succ n ih =>
    obtain ⟨ihP, ihI, ihV, ihF, ihG, ihB⟩ := ih
    refine ⟨?_, ?_, ?_, ?_, ?_, ?_⟩
    -- parseF
    · intro s r s' h
      rw [parseF] at h
      by_cases hc : s.current.isNone
      · rw [if_pos hc] at h
        rcases ht : tokenize s.lexer with ⟨t?, l'⟩
        have hle : l'.length ≤ s.lexer.length := by
          simpa [ht] using tokenize_len_le s.lexer
        rw [advance_eq s t? l' ht] at h
        cases t? with
        | none =>
          dsimp only at h
          simp only [Option.some.injEq, Prod.mk.injEq] at h
          rw [← h.2]
          exact hle
        | some t =>
          dsimp only at h
          split at h
          · exact le_trans (ihI _ _ _ h) hle
          · simp only [Option.some.injEq, Prod.mk.injEq] at h
            rw [← h.2]
            exact hle
      · rw [if_neg hc] at h
        cases hcur : s.current with
        | none => rw [hcur] at hc; simp at hc
        | some t =>
          rw [hcur] at h
          dsimp only at h
          split at h
          · exact ihI _ _ _ h
          · simp only [Option.some.injEq, Prod.mk.injEq] at h
            rw [← h.2]
    -- parse_identifierF
    · intro s r s' h
      rw [parse_identifierF] at h
      cases hcur : s.current with
      | none => rw [hcur] at h; simp at h
      | some ident =>
        rw [hcur] at h
        dsimp only at h
        rcases ht1 : tokenize s.lexer with ⟨t1?, l1⟩
        have hle1 : l1.length ≤ s.lexer.length := by
          simpa [ht1] using tokenize_len_le s.lexer
        rw [advance_eq s t1? l1 ht1] at h
        cases t1? with
        | none =>
          dsimp only at h
          simp only [Option.some.injEq, Prod.mk.injEq] at h
          rw [← h.2]
          exact hle1
        | some next =>
          dsimp only at h
          split at h
          · rcases ht2 : tokenize l1 with ⟨t2?, l2⟩
            have hle2 : l2.length ≤ l1.length := by
              simpa [ht2] using tokenize_len_le l1
            have ha2 := advance_eq ⟨some next, l1⟩ t2? l2 ht2
            rw [ha2] at h
            cases t2? with
            | none =>
              dsimp only at h
              simp only [Option.some.injEq, Prod.mk.injEq] at h
              rw [← h.2]
              exact le_trans hle2 hle1
            | some t2 =>
              dsimp only at h
              rcases hv : parse_valueF n ⟨some t2, l2⟩ with _ | ⟨rv, s3⟩
              · rw [hv] at h; simp at h
              · rw [hv] at h
                have hs3 : s3.lexer.length ≤ s.lexer.length :=
                  le_trans (ihV _ _ _ hv) (le_trans hle2 hle1)
                cases rv with
                | error e =>
                  simp only [Option.some.injEq, Prod.mk.injEq] at h
                  rw [← h.2]
                  exact hs3
                | ok v =>
                  cases v with
                  | Function p rt b =>
                    simp only [Option.some.injEq, Prod.mk.injEq] at h
                    rw [← h.2]
                    exact hs3
                  | Number q =>
                    dsimp only at h
                    cases hc3 : s3.current with
                    | none =>
                      rw [hc3] at h
                      simp only [Option.some.injEq, Prod.mk.injEq] at h
                      rw [← h.2]
                      exact hs3
                    | some tk =>
                      rw [hc3] at h
                      dsimp only at h
                      split at h <;>
                        (simp only [Option.some.injEq, Prod.mk.injEq] at h;
                         rw [← h.2];
                         exact hs3)
                  | String str =>
                    dsimp only at h
                    cases hc3 : s3.current with
                    | none =>
                      rw [hc3] at h
                      simp only [Option.some.injEq, Prod.mk.injEq] at h
                      rw [← h.2]
                      exact hs3
                    | some tk =>
                      rw [hc3] at h
                      dsimp only at h
                      split at h <;>
                        (simp only [Option.some.injEq, Prod.mk.injEq] at h;
                         rw [← h.2];
                         exact hs3)
          · simp only [Option.some.injEq, Prod.mk.injEq] at h
            rw [← h.2]
            exact hle1
    -- parse_valueF
    · intro s r s' h
      rw [parse_valueF] at h
      cases hcur : s.current with
      | none => rw [hcur] at h; simp at h
      | some token =>
        rw [hcur] at h
        dsimp only at h
        split at h
        · rcases hpf : parse_f64 token.value with _ | q <;> rw [hpf] at h <;>
            simp only [Option.some.injEq, Prod.mk.injEq] at h <;> rw [← h.2]
          exact advance_le s
        · rcases hpf : parse_f64 token.value with _ | q <;> rw [hpf] at h <;>
            simp only [Option.some.injEq, Prod.mk.injEq] at h <;> rw [← h.2]
          exact advance_le s
        · simp only [Option.some.injEq, Prod.mk.injEq] at h
          rw [← h.2]
          exact advance_le s
        · exact ihF _ _ _ h
        · simp only [Option.some.injEq, Prod.mk.injEq] at h
          rw [← h.2]
    -- parse_functionF
    · intro s r s' h
      rw [parse_functionF] at h
      cases hcur : s.current with
      | none => rw [hcur] at h; simp at h
      | some prev =>
        rw [hcur] at h
        dsimp only at h
        rcases hg : go_curlyF n prev s with _ | ⟨rg, sg⟩
        · rw [hg] at h; simp at h
        · rw [hg] at h
          have hsg : sg.lexer.length ≤ s.lexer.length := by
            rcases ihG _ _ _ _ hg with h1 | ⟨h1, _⟩
            · exact le_of_lt h1
            · exact h1
          cases rg with
          | error e =>
            simp only [Option.some.injEq, Prod.mk.injEq] at h
            rw [← h.2]
            exact hsg
          | ok prev1 =>
            exact le_trans (ihB _ _ _ _ _ h) hsg
    -- go_curlyF
    · intro prev s r s' h
      rw [go_curlyF] at h
      rcases ht : tokenize s.lexer with ⟨t?, l'⟩
      have hle : l'.length ≤ s.lexer.length := by
        simpa [ht] using tokenize_len_le s.lexer
      rw [advance_eq s t? l' ht] at h
      cases t? with
      | none =>
        dsimp only at h
        simp only [Option.some.injEq, Prod.mk.injEq] at h
        refine Or.inr ⟨by rw [← h.2]; exact hle, fun t hr => ?_⟩
        rw [← h.1] at hr
        simp at hr
      | some token =>
        have hlt : l'.length < s.lexer.length := by
          have := tokenize_some_lt s.lexer token (by rw [ht])
          simpa [ht] using this
        dsimp only at h
        split at h
        · simp only [Option.some.injEq, Prod.mk.injEq] at h
          refine Or.inl ?_
          rw [← h.2]
          exact hlt
        · refine Or.inl ?_
          have : s'.lexer.length ≤ l'.length := by
            rcases ihG _ _ _ _ h with h1 | ⟨h1, _⟩
            · exact le_of_lt h1
            · exact h1
          omega
    -- fn_bodyF
    · intro prev body s r s' h
      rw [fn_bodyF] at h
      rcases ht : tokenize s.lexer with ⟨t?, l'⟩
      have hle : l'.length ≤ s.lexer.length := by
        simpa [ht] using tokenize_len_le s.lexer
      rw [advance_eq s t? l' ht] at h
      cases t? with
      | none =>
        dsimp only at h
        simp only [Option.some.injEq, Prod.mk.injEq] at h
        rw [← h.2]
        exact hle
      | some token =>
        dsimp only at h
        split at h
        · simp only [Option.some.injEq, Prod.mk.injEq] at h
          rw [← h.2]
          exact le_trans (advance_le ⟨some token, l'⟩) hle
        · rcases hp : parseF n ⟨some token, l'⟩ with _ | ⟨re, s2⟩
          · rw [hp] at h; simp at h
          · rw [hp] at h
            have hs2 : s2.lexer.length ≤ l'.length := ihP _ _ _ hp
            cases re with
            | error e =>
              simp only [Option.some.injEq, Prod.mk.injEq] at h
              rw [← h.2]
              exact le_trans hs2 hle
            | ok e =>
              exact le_trans (ihB _ _ _ _ _ h) (le_trans hs2 hle)

/-- Fuel `2 * remaining-characters + 2` always suffices: every loop iteration
and recursive call of the parser consumes at least one token, hence at least
one character, so the recursion is well-founded in the number of remaining
characters. -/
theorem parser_suff : ∀ fuel : Nat,
    (∀ s : PState, 2 * s.lexer.length + 2 ≤ fuel → parseF fuel s ≠ none) ∧
    (∀ s : PState, s.current.isSome → 2 * s.lexer.length + 1 ≤ fuel →
      parse_identifierF fuel s ≠ none) ∧
    (∀ s : PState, s.current.isSome → 2 * s.lexer.length + 3 ≤ fuel →
      parse_valueF fuel s ≠ none) ∧
    (∀ s : PState, s.current.isSome → 2 * s.lexer.length + 2 ≤ fuel →
      parse_functionF fuel s ≠ none) ∧
    (∀ (prev : Token) (s : PState), s.lexer.length + 1 ≤ fuel →
      go_curlyF fuel prev s ≠ none) ∧
    (∀ (prev : Token) (body : List Expr) (s : PState), 2 * s.lexer.length + 1 ≤ fuel →
      fn_bodyF fuel prev body s ≠ none) := by
  intro fuel
  induction fuel with
  | zero =>
    refine ⟨?_, ?_, ?_, ?_, ?_, ?_⟩ <;> intros <;> omega
  | succ n ih =>
    obtain ⟨ihP, ihI, ihV, ihF, ihG, ihB⟩ := ih
    refine ⟨?_, ?_, ?_, ?_, ?_, ?_⟩
    -- parseF
    · intro s hfuel
      rw [parseF]
      by_cases hc : s.current.isNone
      · rw [if_pos hc]
        rcases ht : tokenize s.lexer with ⟨t?, l'⟩
        have hle : l'.length ≤ s.lexer.length := by
          simpa [ht] using tokenize_len_le s.lexer
        rw [advance_eq s t? l' ht]
        cases t? with
        | none => simp
        | some t =>
          dsimp only
          split
          · exact ihI ⟨some t, l'⟩ rfl (by simp only [PState.lexer]; omega)
          · simp
      · rw [if_neg hc]
        cases hcur : s.current with
        | none => rw [hcur] at hc; simp at hc
        | some t =>
          dsimp only
          split
          · exact ihI s (by rw [hcur]; rfl) (by omega)
          · simp
    -- parse_identifierF
    · intro s hsome hfuel
      rw [parse_identifierF]
      cases hcur : s.current with
      | none => rw [hcur] at hsome; simp at hsome
      | some ident =>
        dsimp only
        rcases ht1 : tokenize s.lexer with ⟨t1?, l1⟩
        rw [advance_eq s t1? l1 ht1]
        cases t1? with
        | none => simp
        | some next =>
          have hlt1 : l1.length < s.lexer.length := by
            simpa [ht1] using tokenize_some_lt s.lexer next (by rw [ht1])
          dsimp only
          split
          · rcases ht2 : tokenize l1 with ⟨t2?, l2⟩
            have ha2 := advance_eq ⟨some next, l1⟩ t2? l2 ht2
            rw [ha2]
            cases t2? with
            | none => simp
            | some t2 =>
              have hlt2 : l2.length < l1.length := by
                simpa [ht2] using tokenize_some_lt l1 t2 (by rw [ht2])
              dsimp only
              rcases hv : parse_valueF n ⟨some t2, l2⟩ with _ | ⟨rv, s3⟩
              · exact absurd hv (ihV ⟨some t2, l2⟩ rfl (by simp only [PState.lexer]; omega))
              · cases rv with
                | error e => simp
                | ok v =>
                  cases v with
                  | Function p rt b => simp
                  | Number q =>
                    dsimp only
                    cases hc3 : s3.current with
                    | none => simp
                    | some tk => dsimp only; split <;> simp
                  | String str =>
                    dsimp only
                    cases hc3 : s3.current with
                    | none => simp
                    | some tk => dsimp only; split <;> simp
          · simp
    -- parse_valueF
    · intro s hsome hfuel
      rw [parse_valueF]
      cases hcur : s.current with
      | none => rw [hcur] at hsome; simp at hsome
      | some token =>
        dsimp only
        split
        · rcases hpf : parse_f64 token.value with _ | q <;> simp
        · rcases hpf : parse_f64 token.value with _ | q <;> simp
        · simp
        · exact ihF s hsome (by omega)
        · simp
    -- parse_functionF
    · intro s hsome hfuel
      rw [parse_functionF]
      cases hcur : s.current with
      | none => rw [hcur] at hsome; simp at hsome
      | some prev =>
        dsimp only
        rcases hg : go_curlyF n prev s with _ | ⟨rg, sg⟩
        · exact absurd hg (ihG prev s (by omega))
        · cases rg with
          | error e => simp
          | ok prev1 =>
            have hlt : sg.lexer.length < s.lexer.length := by
              rcases (parser_mono n).2.2.2.2.1 _ _ _ _ hg with h1 | ⟨_, h2⟩
              · exact h1
              · exact absurd rfl (h2 prev1)
            exact ihB prev1 [] sg (by omega)
    -- go_curlyF
    · intro prev s hfuel
      rw [go_curlyF]
      rcases ht : tokenize s.lexer with ⟨t?, l'⟩
      rw [advance_eq s t? l' ht]
      cases t? with
      | none => simp
      | some token =>
        have hlt : l'.length < s.lexer.length := by
          simpa [ht] using tokenize_some_lt s.lexer token (by rw [ht])
        dsimp only
        split
        · simp
        · exact ihG token ⟨some token, l'⟩ (by simp only [PState.lexer]; omega)
    -- fn_bodyF
    · intro prev body s hfuel
      rw [fn_bodyF]
      rcases ht : tokenize s.lexer with ⟨t?, l'⟩
      rw [advance_eq s t? l' ht]
      cases t? with
      | none => simp
      | some token =>
        have hlt : l'.length < s.lexer.length := by
          simpa [ht] using tokenize_some_lt s.lexer token (by rw [ht])
        dsimp only
        split
        · simp
        · rcases hp : parseF n ⟨some token, l'⟩ with _ | ⟨re, s2⟩
          · exact absurd hp (ihP ⟨some token, l'⟩ (by simp only [PState.lexer]; omega))
          · have hs2 : s2.lexer.length ≤ l'.length := (parser_mono n).1 _ _ _ hp
            cases re with
            | error e => simp
            | ok e => exact ihB token (body ++ [e]) s2 (by omega)

/-- C10: the front end terminates on every finite input.  A `tokenize` call
that returns a token strictly shrinks the remaining input, and the
`parse`/`parse_value`/`parse_function` mutual recursion never exhausts the
fuel `2 * remaining-characters + 2` that `parse` supplies, because every
iteration consumes at least one token: `parse` never returns the
out-of-fuel marker `none`. -/
theorem c10_termination :
    (∀ (l : List Char) (t : Token), (tokenize l).1 = some t →
      (tokenize l).2.length < l.length) ∧
    (∀ s : PState, parse s ≠ none) :=
  ⟨tokenize_some_lt,
   fun s => (parser_suff (2 * s.lexer.length + 2)).1 s (le_refl _)⟩

/-- Witness for C10: the lexer step at the input `1` and the parser run at
the empty input. -/
theorem c10_witness :
    (tokenize "1".data).2.length < "1".data.length ∧ parse ⟨none, []⟩ ≠ none :=
  ⟨c10_termination.1 "1".data ⟨TokenKind.Integer, "1".data⟩ rfl,
   c10_termination.2 ⟨none, []⟩⟩

end EZ
